import Mathlib

/-!
Verification of the `anada` note store (`anada/note_manager.py`).

Texts (titles, contents, file names) are modelled as `List Char`; Python
string operations are translated operation by operation:
`str.lower` becomes `List.map Char.toLower` (ASCII case model),
`str.replace(a, b)` on single characters becomes a character map,
`s.find(sub)` becomes `findSub`, `s.count(sub)` becomes `countOccs`,
`s.replace(sub, "")` becomes `removeOcc`, `in` becomes `Option.isSome`
of `findSub`, and `str.strip` becomes `strip`.  The regex findall over
`LINK_PATTERN = \[\[([^\]]+)\]\]` becomes the scanner `scanLinks`.
-/

namespace Anada

abbrev Str := List Char

/-- `s.lower()` (ASCII case model, as in `Char.toLower`). -/
def lowerStr (s : Str) : Str := s.map Char.toLower

/-- One character of `.replace(' ', '_')`. -/
def spaceToUnd (c : Char) : Char := if c = ' ' then '_' else c

/-- One character of `.replace('/', '_')`. -/
def slashToUnd (c : Char) : Char := if c = '/' then '_' else c

/-- One character of `.replace('_', ' ')`. -/
def undToSpace (c : Char) : Char := if c = '_' then ' ' else c

/-- The extension string `".md"`. -/
def mdExt : Str := ['.', 'm', 'd']

/-- `NoteManager._get_note_path`: lowercase the title, replace each space and
each slash by an underscore, and append `".md"` unless the name already ends
with it.  The notes directory prefix is left implicit: the model works with
the file name, the final path component. -/
def pathFor (title : Str) : Str :=
  let filename := ((lowerStr title).map spaceToUnd).map slashToUnd
  if mdExt.isSuffixOf filename then filename else filename ++ mdExt

/-- Index of the last `'.'` in a name (CPython `str.rfind('.')`),
or `none` when there is no dot. -/
def lastDotIdx (s : Str) : Option Nat :=
  match s.reverse.findIdx? (fun c => c = '.') with
  | some j => some (s.length - 1 - j)
  | none => none

/-- `pathlib.PurePath.stem` on a file name: the name without its last
suffix, where the suffix starts at the last dot `i` with `0 < i < len - 1`. -/
def stem (s : Str) : Str :=
  match lastDotIdx s with
  | some i => if 0 < i ∧ i + 1 < s.length then s.take i else s
  | none => s

/-- `NoteManager._get_title_from_path`: the stem of the file name with each
underscore replaced by a space. -/
def titleFor (p : Str) : Str := (stem p).map undToSpace

/-- The backlink comparison key of `NoteManager.get_backlinks`:
`title.lower().replace(' ', '_')` (no slash replacement here). -/
def normKey (t : Str) : Str := (lowerStr t).map spaceToUnd

/-- `s.find(sub)` : index of the first occurrence of `sub` in `s`,
`none` when absent (Python returns `-1` there; the snippet code checks
for that case explicitly, so an `Option` is the faithful translation).
`findSub [] s = some 0`, as `s.find("") == 0` in Python. -/
def findSub (q : Str) : Str → Option Nat
  | [] => if q.isEmpty then some 0 else none
  | c :: rest =>
    if q.isPrefixOf (c :: rest) then some 0
    else (findSub q rest).map (· + 1)

/-- Fuel-driven core of `s.count(sub)` for non-empty `sub`: non-overlapping
occurrences counted left to right, resuming after each match.  The fuel is
always instantiated with `s.length`, which bounds the recursion depth. -/
def countAux : Nat → Str → Str → Nat
  | 0, _, _ => 0
  | _ + 1, _, [] => 0
  | fuel + 1, sub, c :: rest =>
    if sub.isPrefixOf (c :: rest) then
      countAux fuel sub (rest.drop (sub.length - 1)) + 1
    else countAux fuel sub rest

/-- `s.count(sub)`: Python returns `len(s) + 1` for the empty pattern,
else the number of non-overlapping left-to-right occurrences. -/
def countOccs (sub s : Str) : Nat :=
  if sub.isEmpty then s.length + 1 else countAux s.length sub s

/-- Fuel-driven core of `s.replace(sub, '')` for non-empty `sub`:
removes the non-overlapping left-to-right occurrences of `sub`. -/
def removeAux : Nat → Str → Str → Str
  | 0, _, s => s
  | _ + 1, _, [] => []
  | fuel + 1, sub, c :: rest =>
    if sub.isPrefixOf (c :: rest) then
      removeAux fuel sub (rest.drop (sub.length - 1))
    else c :: removeAux fuel sub rest

/-- `s.replace(sub, '')` for non-empty `sub` (used by `get_backlinks` with
`sub = ".md"`): every occurrence is removed, not only a trailing one. -/
def removeOcc (sub s : Str) : Str := removeAux s.length sub s

/-- Fuel-driven scanner for `re.findall(r'\[\[([^\]]+)\]\]', text)`.
At each position: on `[[`, the candidate inner text is the maximal run of
non-`]` characters after it; the match succeeds when that run is non-empty
and is followed by `]]`, the scan resuming after the closing brackets
(found matches do not overlap); otherwise the scan moves one character forward.
The fuel is always instantiated with the text length, which bounds the
recursion depth. -/
def scanLinks : Nat → Str → List Str
  | 0, _ => []
  | _ + 1, [] => []
  | fuel + 1, c :: rest =>
    if c = '[' ∧ rest.take 1 = ['['] then
      let inner := (rest.drop 1).takeWhile (fun ch => ch ≠ ']')
      let after := (rest.drop 1).drop inner.length
      if after.take 2 = [']', ']'] ∧ inner ≠ [] then
        inner :: scanLinks fuel (after.drop 2)
      else scanLinks fuel rest
    else scanLinks fuel rest

/-- `NoteManager.find_links`: `LINK_PATTERN.findall(content)`. -/
def find_links (content : Str) : List Str := scanLinks content.length content

/-- `str.strip()`: leading and trailing whitespace removed
(ASCII whitespace model, as in `Char.isWhitespace`). -/
def strip (s : Str) : Str :=
  ((s.dropWhile Char.isWhitespace).reverse.dropWhile Char.isWhitespace).reverse

/-- `NoteManager._get_snippet` with the default `context = 50`:
window `content[max(0, idx - 50) : min(len(content), idx + len(query) + 50)]`
around the first case-insensitive match at `idx`, an ellipsis on each side
that was clipped, then stripped; `content[:100]` when there is no match.
Natural-number subtraction supplies the `max(0, ...)` clip. -/
def get_snippet (content query : Str) : Str :=
  match findSub (lowerStr query) (lowerStr content) with
  | none => content.take 100
  | some idx =>
    let start := idx - 50
    let stop := min content.length (idx + query.length + 50)
    let snip := (content.take stop).drop start
    let snip2 := if 0 < start then ("...".data) ++ snip else snip
    let snip3 := if stop < content.length then snip2 ++ ("...".data) else snip2
    strip snip3

/-!
Corpus-level operations.  A corpus is the sequence produced by
`NoteManager.list_all()` with each note's title paired with the content
that `read(title)` returns for it: `list_all` orders notes by modification
time descending, and `get_backlinks` / `search` consume exactly that order,
reading each note's content.  A note whose `read` returns `None` behaves
like one with empty content in both loops (the `if content:` guard), so
content is modelled as the plain text, the empty text covering both falsy
cases.
-/

structure Note where
  title : Str
  content : Str
deriving DecidableEq

/-- The link comparison of `get_backlinks`: the link text, lowercased with
spaces replaced by underscores, equals the target key or equals the target
key with its `".md"` occurrences removed (`str.replace('.md', '')`). -/
def linkTargetMatch (target link : Str) : Bool :=
  normKey link == target || normKey link == removeOcc mdExt target

/-- One iteration of the `get_backlinks` outer loop: the note contributes
(once) when its content is truthy and some extracted link matches it; the
`break` after the first matching link is the same as `List.any`. -/
def noteHasLink (target content : Str) : Bool :=
  !content.isEmpty && (find_links content).any (fun l => linkTargetMatch target l)

/-- `NoteManager.get_backlinks`: titles of the notes, in corpus order,
whose content links to the target. -/
def get_backlinks (corpus : List Note) (title : Str) : List Str :=
  corpus.foldr
    (fun n acc => if noteHasLink (normKey title) n.content then n.title :: acc else acc) []

structure SearchResult where
  title : Str
  snippet : Str
  matchCount : Nat
deriving DecidableEq

/-- The comparison Python's `sorted(results, key=lambda x: x['matchCount'],
reverse=True)` sorts by: descending match count. -/
def moreMatches (a b : SearchResult) : Prop := b.matchCount ≤ a.matchCount

instance : DecidableRel moreMatches := fun a b => Nat.decLe b.matchCount a.matchCount

instance : IsTotal SearchResult moreMatches :=
  ⟨fun a b => Nat.le_total b.matchCount a.matchCount⟩

instance : IsTrans SearchResult moreMatches :=
  ⟨fun _ _ _ h1 h2 => Nat.le_trans h2 h1⟩

/-- The filtering loop of `NoteManager.search`: one result per note, in
corpus order, for each note with truthy content containing the lowercased
query. -/
def includeList (corpus : List Note) (query : Str) : List SearchResult :=
  corpus.foldr
    (fun n acc =>
      if !n.content.isEmpty && (findSub (lowerStr query) (lowerStr n.content)).isSome then
        { title := n.title
          snippet := get_snippet n.content query
          matchCount := countOccs (lowerStr query) (lowerStr n.content) } :: acc
      else acc) []

/-- `NoteManager.search`: the filtering loop followed by Python's `sorted`
with `key=matchCount, reverse=True`.  Python's sort is stable; `insertionSort`
with `moreMatches` inserts each element after every earlier element of equal
key, which is the same stable descending order (the search theorem proves
both the ordering and the stability explicitly). -/
def search (corpus : List Note) (query : Str) : List SearchResult :=
  List.insertionSort moreMatches (includeList corpus query)

/-!
Filesystem model for the CRUD operations.  The store owns one notes
directory; its state is whether that directory exists together with the
contents of its files (file name to text).  `writeText` models
`pathlib.Path.write_text`, which requires the parent directory to exist
and otherwise raises `FileNotFoundError` (it never creates directories);
`IOFailure` stands for that error.  A file can only exist inside an
existing directory, so the existence test is guarded by `dirExists`.
-/

inductive Err where
  | alreadyExists
  | ioError
deriving DecidableEq

structure FS where
  dirExists : Bool
  files : Str → Option Str

/-- Overwrite (or create) one file binding. -/
def setFile (f : Str → Option Str) (p c : Str) : Str → Option Str :=
  fun q => if q = p then some c else f q

/-- Remove one file binding (`Path.unlink`). -/
def eraseFile (f : Str → Option Str) (p : Str) : Str → Option Str :=
  fun q => if q = p then none else f q

/-- Content of the file at `p`, when the directory and the file exist. -/
def lookupFile (fs : FS) (p : Str) : Option Str :=
  if fs.dirExists then fs.files p else none

/-- `Path.exists()` for a file inside the notes directory. -/
def pathExists (fs : FS) (p : Str) : Bool :=
  fs.dirExists && (fs.files p).isSome

/-- `NoteManager.__init__`: `notes_dir.mkdir(parents=True, exist_ok=True)` —
the notes directory (with parents, collapsed into one flag here) is created
if absent. -/
def initStore (fs : FS) : FS := { fs with dirExists := true }

/-- `Path.write_text`: overwrites the file's content, creating the file if
absent, but fails when the notes directory does not exist. -/
def writeText (fs : FS) (p c : Str) : Except Err FS :=
  if fs.dirExists then .ok { dirExists := true, files := setFile fs.files p c }
  else .error .ioError

/-- The generated body of `NoteManager.create`: a frontmatter block with the
creation timestamp, a blank line, a level-1 heading with the literal title,
and a trailing blank line. -/
def genBody (now title : Str) : Str :=
  ("---\ncreated: ".data) ++ now ++ ("\n---\n\n# ".data) ++ title ++ ("\n\n".data)

/-- `NoteManager.create`: raises `FileExistsError` when the path exists,
else writes the generated body and returns the path.  The result pairs the
outcome with the post-state (unchanged when an error is raised, since the
exception fires before any write). -/
def create (fs : FS) (now title : Str) : Except Err Str × FS :=
  let p := pathFor title
  if pathExists fs p then (.error .alreadyExists, fs)
  else
    match writeText fs p (genBody now title) with
    | .ok fs2 => (.ok p, fs2)
    | .error e => (.error e, fs)

/-- `NoteManager.read`: `None` when the path does not exist, else the file
content; absence is a value, not an exception. -/
def read (fs : FS) (title : Str) : Option Str :=
  if pathExists fs (pathFor title) then lookupFile fs (pathFor title) else none

/-- `NoteManager.update`: unconditional `write_text` — no existence check,
no generated frontmatter. -/
def update (fs : FS) (title content : Str) : Except Err FS :=
  writeText fs (pathFor title) content

/-- `NoteManager.delete`: unlink and `true` when the path exists, else
`false`; never an exception.  The result pairs the flag with the
post-state. -/
def delete (fs : FS) (title : Str) : Bool × FS :=
  let p := pathFor title
  if pathExists fs p then (true, { fs with files := eraseFile fs.files p })
  else (false, fs)

/-! ### CRUD claims -/

/-- C5.  `create(title)` raises `AlreadyExists` exactly when the normalized
path already has a file; when it raises, the store is unchanged and no file
is written; otherwise (on a constructed store, whose notes directory
exists) it writes the generated frontmatter-plus-heading body and returns
the resolved path, and a second `create` of the same title fails with
`AlreadyExists`. -/
theorem claim5_create (fs : FS) (now now2 title : Str) (hdir : fs.dirExists = true) :
    ((create fs now title).1 = .error .alreadyExists
      ↔ pathExists fs (pathFor title) = true)
    ∧ ((create fs now title).1 = .error .alreadyExists → (create fs now title).2 = fs)
    ∧ (pathExists fs (pathFor title) = false →
        (create fs now title).1 = .ok (pathFor title)
        ∧ lookupFile (create fs now title).2 (pathFor title) = some (genBody now title)
        ∧ (create (create fs now title).2 now2 title).1 = .error .alreadyExists) := by
  by_cases h : pathExists fs (pathFor title) = true
  · refine ⟨by simp [create, h], fun _ => by simp [create, h], fun hf => ?_⟩
    rw [h] at hf
    exact absurd hf (by simp)
  · have hfile : (fs.files (pathFor title)).isSome = false := by
      cases hx : (fs.files (pathFor title)).isSome
      · rfl
      · exact absurd (by simp [pathExists, hdir, hx]) h
    refine ⟨by simp [create, pathExists, hfile, hdir, writeText], ?_, fun _ => ?_⟩
    · intro hc
      simp [create, pathExists, hfile, hdir, writeText] at hc
    · refine ⟨by simp [create, pathExists, hfile, hdir, writeText], ?_, ?_⟩
      · simp [create, pathExists, hfile, hdir, writeText, lookupFile, setFile]
      · simp [create, pathExists, hfile, hdir, writeText, setFile]

/-- Witness for C5 on the empty constructed store: creating `Foo` writes
`foo.md` with the generated body, and creating it again fails. -/
theorem claim5_create_witness :
    (create ⟨true, fun _ => none⟩ ("now".data) ("Foo".data)).1
      = .ok (pathFor ("Foo".data))
    ∧ lookupFile (create ⟨true, fun _ => none⟩ ("now".data) ("Foo".data)).2
        (pathFor ("Foo".data)) = some (genBody ("now".data) ("Foo".data))
    ∧ (create (create ⟨true, fun _ => none⟩ ("now".data) ("Foo".data)).2
        ("later".data) ("Foo".data)).1 = .error .alreadyExists :=
  (claim5_create ⟨true, fun _ => none⟩ ("now".data) ("later".data) ("Foo".data)
    rfl).2.2 rfl

/-- C6.  `read` of an absent title is the absence value `none`, never an
exception, `delete` of an absent title returns `false` and leaves the store
unchanged, and `delete` of a present title removes the file and returns
`true` — absence is signalled by `Option`/`Bool` values, both operations
are total. -/
theorem claim6_read_delete (fs : FS) (title : Str) :
    (pathExists fs (pathFor title) = false →
      read fs title = none ∧ delete fs title = (false, fs))
    ∧ (pathExists fs (pathFor title) = true →
      (delete fs title).1 = true
      ∧ lookupFile (delete fs title).2 (pathFor title) = none
      ∧ read (delete fs title).2 title = none) := by
  constructor
  · intro h
    exact ⟨by simp [read, h], by simp [delete, h]⟩
  · intro h
    have hd : fs.dirExists = true ∧ (fs.files (pathFor title)).isSome = true := by
      simpa [pathExists] using h
    refine ⟨by simp [delete, pathExists, hd.1, hd.2], ?_, ?_⟩
    · simp [delete, pathExists, hd.1, hd.2, lookupFile, eraseFile]
    · simp [read, delete, pathExists, hd.1, hd.2, eraseFile]

/-- Witness for C6: on the empty constructed store `read`/`delete` of the
absent `note` signal absence; after writing `note.md` directly, `delete`
removes it. -/
theorem claim6_read_delete_witness :
    (read ⟨true, fun _ => none⟩ ("note".data) = none
      ∧ delete ⟨true, fun _ => none⟩ ("note".data) = (false, ⟨true, fun _ => none⟩))
    ∧ ((delete ⟨true, setFile (fun _ => none) (pathFor ("note".data)) ("hi".data)⟩
          ("note".data)).1 = true
      ∧ lookupFile (delete ⟨true, setFile (fun _ => none)
          (pathFor ("note".data)) ("hi".data)⟩ ("note".data)).2
          (pathFor ("note".data)) = none
      ∧ read (delete ⟨true, setFile (fun _ => none)
          (pathFor ("note".data)) ("hi".data)⟩ ("note".data)).2
          ("note".data) = none) :=
  ⟨(claim6_read_delete ⟨true, fun _ => none⟩ ("note".data)).1 rfl,
   (claim6_read_delete ⟨true, setFile (fun _ => none)
      (pathFor ("note".data)) ("hi".data)⟩ ("note".data)).2 rfl⟩

/-- C8.  On a constructed store, `update(title, content)` overwrites the
file at the normalized path with exactly the given content — creating it
when absent, with no existence check and no frontmatter — and a subsequent
`read(title)` returns exactly that content. -/
theorem claim8_update (fs : FS) (title content : Str) (hdir : fs.dirExists = true) :
    update fs title content
      = .ok { dirExists := true, files := setFile fs.files (pathFor title) content }
    ∧ read { dirExists := true, files := setFile fs.files (pathFor title) content }
        title = some content := by
  refine ⟨by simp [update, writeText, hdir], ?_⟩
  simp [read, pathExists, lookupFile, setFile]

/-- Witness for C8: updating the absent `note` on the empty constructed
store creates it with exactly the given content, readable back. -/
theorem claim8_update_witness :
    update ⟨true, fun _ => none⟩ ("note".data) ("plain body".data)
      = .ok { dirExists := true,
              files := setFile (fun _ => none) (pathFor ("note".data))
                ("plain body".data) }
    ∧ read { dirExists := true,
             files := setFile (fun _ => none) (pathFor ("note".data))
               ("plain body".data) } ("note".data) = some ("plain body".data) :=
  claim8_update ⟨true, fun _ => none⟩ ("note".data) ("plain body".data) rfl

/-- Counterexample to C9.  The claim says every write operation creates the
notes directory if absent, so `create` and `update` succeed even when it
does not exist.  In the code only `__init__` calls `mkdir`;
`Path.write_text` requires the parent directory and raises
`FileNotFoundError` otherwise, so on a store whose directory is gone both
writes fail with an I/O error and produce no file. -/
theorem claim9_mkdir_cex :
    update ⟨false, fun _ => none⟩ ("note".data) ("text".data) = .error .ioError
    ∧ (create ⟨false, fun _ => none⟩ ("now".data) ("note".data)).1
        = .error .ioError := ⟨rfl, rfl⟩

/-- C9 amended.  The notes directory is created if absent at store
construction only; writes do not create it: when it exists, `update`
produces the file, and when it does not, `update` and `create` fail with an
I/O error, leaving the store unchanged. -/
theorem claim9_mkdir_amended (fs : FS) (now title content : Str) :
    (initStore fs).dirExists = true
    ∧ (fs.dirExists = true →
        update fs title content
          = .ok { dirExists := true, files := setFile fs.files (pathFor title) content })
    ∧ (fs.dirExists = false → update fs title content = .error .ioError)
    ∧ (fs.dirExists = false → create fs now title = (.error .ioError, fs)) := by
  refine ⟨rfl, fun hdir => by simp [update, writeText, hdir], ?_, ?_⟩
  · intro hdir
    simp [update, writeText, hdir]
  · intro hdir
    simp [create, pathExists, hdir, writeText]

/-- Witness for C9 (amended): construction turns the directory on even when
it was absent, and `update` then succeeds. -/
theorem claim9_mkdir_witness :
    (initStore ⟨false, fun _ => none⟩).dirExists = true
    ∧ update ⟨true, fun _ => none⟩ ("note".data) ("text".data)
        = .ok { dirExists := true,
                files := setFile (fun _ => none) (pathFor ("note".data))
                  ("text".data) } :=
  ⟨(claim9_mkdir_amended ⟨false, fun _ => none⟩ ("now".data) ("note".data)
      ("text".data)).1,
   (claim9_mkdir_amended ⟨true, fun _ => none⟩ ("now".data) ("note".data)
      ("text".data)).2.1 rfl⟩

/-! ### Link extraction -/

/-- The scanner's result does not depend on the fuel once the fuel covers
the text length: every step shortens the remaining text by at least one
character while spending exactly one unit of fuel. -/
theorem scanLinks_fuel (f1 : Nat) : ∀ (f2 : Nat) (s : Str),
    s.length ≤ f1 → s.length ≤ f2 → scanLinks f1 s = scanLinks f2 s := by
  induction f1 with
  | zero =>
    intro f2 s h1 _
    have hs : s = [] := List.eq_nil_of_length_eq_zero (Nat.le_zero.mp h1)
    subst hs
    cases f2 <;> rfl
  | succ a ih =>
    intro f2 s h1 h2
    cases s with
    | nil => cases f2 <;> rfl
    | cons c rest =>
      cases f2 with
      | zero => simp at h2
      | succ b =>
        simp only [scanLinks]
        by_cases hc : c = '[' ∧ rest.take 1 = ['[']
        · simp only [if_pos hc]
          by_cases hm : ((rest.drop 1).drop
                ((rest.drop 1).takeWhile (fun ch => ch ≠ ']')).length).take 2
                  = [']', ']']
              ∧ (rest.drop 1).takeWhile (fun ch => ch ≠ ']') ≠ []
          · simp only [if_pos hm]
            congr 1
            apply ih
            · simp only [List.length_drop]
              simp at h1
              omega
            · simp only [List.length_drop]
              simp at h2
              omega
          · simp only [if_neg hm]
            apply ih
            · simp at h1 ⊢
              omega
            · simp at h2 ⊢
              omega
        · simp only [if_neg hc]
          apply ih
          · simp at h1 ⊢
            omega
          · simp at h2 ⊢
            omega

/-- A run of non-`]` characters followed by `]` is exactly what
`takeWhile` keeps. -/
theorem takeWhile_append_rbr (inner xs : Str) (h : ']' ∉ inner) :
    (inner ++ ']' :: xs).takeWhile (fun ch => ch ≠ ']') = inner := by
  have hp : ∀ a ∈ inner, ((fun ch => decide (ch ≠ ']')) a) = true := by
    intro a ha
    have hne : a ≠ ']' := fun hx => h (hx ▸ ha)
    simpa using hne
  rw [List.takeWhile_append_of_pos hp]
  simp

/-- C7.  `extractLinks` returns the inner capture of every occurrence of
`[[` `[^\]]+` `]]` in order of appearance, duplicates retained and case
preserved: concretely on the spec's example, and compositionally — a
well-formed link at the head of the text contributes its (non-empty,
bracket-free) inner text followed by the links of the remainder, the scan
resuming after the closing brackets. -/
theorem claim7_extract_links :
    find_links ("See [[Project Plan]] and [[project plan]] again".data)
      = ["Project Plan".data, "project plan".data]
    ∧ ∀ inner rest : Str, inner ≠ [] → ']' ∉ inner →
        find_links ('[' :: '[' :: (inner ++ ']' :: ']' :: rest))
          = inner :: find_links rest := by
  refine ⟨by decide, ?_⟩
  intro inner rest hne hmem
  have h1 : find_links ('[' :: '[' :: (inner ++ ']' :: ']' :: rest))
      = scanLinks (inner.length + rest.length + 3 + 1)
          ('[' :: '[' :: (inner ++ ']' :: ']' :: rest)) := by
    apply scanLinks_fuel
    · simp
    · simp
      omega
  rw [h1]
  have htw : (inner ++ ']' :: ']' :: rest).takeWhile (fun ch => ch ≠ ']') = inner :=
    takeWhile_append_rbr inner (']' :: rest) hmem
  simp only [scanLinks, List.take_succ_cons, List.take_zero, List.drop_succ_cons,
    List.drop_zero, htw, List.drop_left, and_self, if_true, true_and]
  rw [if_pos hne]
  congr 1
  apply scanLinks_fuel <;> omega

/-- Witness for C7's compositional part: a single well-formed link with a
tail that itself holds one more link. -/
theorem claim7_extract_links_witness :
    find_links ('[' :: '[' :: ("Alpha".data ++ ']' :: ']' :: " and [[beta]]".data))
      = "Alpha".data :: find_links (" and [[beta]]".data) :=
  claim7_extract_links.2 ("Alpha".data) (" and [[beta]]".data)
    (by decide) (by decide)

/-! ### Backlinks -/

/-- The normalized key with a trailing `".md"` stripped — the comparison the
claim describes for the second branch of the backlink match. -/
def stripTrailingMd (s : Str) : Str :=
  if mdExt.isSuffixOf s then s.take (s.length - 3) else s

/-- The claim's version of the link comparison: the normalized link equals
the target key, or equals the target key with a trailing `".md"`
stripped. -/
def linkClaimMatch (target link : Str) : Bool :=
  normKey link == target || normKey link == stripTrailingMd target

/-- Counterexample to C1.  For the target title `x.md y` (key `x.md_y`,
which has no trailing `.md` to strip) the claim's criterion matches no link
of the note `[[x y]]`, yet the code records the note as a backlink: the
code removes every occurrence of `.md` from the key
(`'x.md_y'.replace('.md', '') == 'x_y'`), not only a trailing one. -/
theorem claim1_backlinks_cex :
    get_backlinks [⟨"b".data, "[[x y]]".data⟩] ("x.md y".data) = ["b".data]
    ∧ (find_links ("[[x y]]".data)).all
        (fun l => !linkClaimMatch (normKey ("x.md y".data)) l) = true := by
  constructor
  · decide
  · decide

/-- C1 amended.  `backlinksTo(T)` is exactly the titles, in `listAll()`
order, of the notes having at least one extracted link whose normalization
(lowercase, spaces to underscores) equals `T`'s normalized key or equals
`T`'s normalized key with every occurrence of `.md` removed (left to
right, non-overlapping); each source note contributes at most one entry,
and a note linking to itself is not excluded — all of which the filter-map
form expresses. -/
theorem claim1_backlinks_amended (corpus : List Note) (title : Str) :
    get_backlinks corpus title
      = (corpus.filter (fun n => (find_links n.content).any
            (fun l => normKey l == normKey title
              || normKey l == removeOcc mdExt (normKey title)))).map Note.title := by
  have hcond : ∀ c : Str, noteHasLink (normKey title) c
      = (find_links c).any
          (fun l => normKey l == normKey title
            || normKey l == removeOcc mdExt (normKey title)) := by
    intro c
    cases c with
    | nil => rfl
    | cons a t => simp [noteHasLink, linkTargetMatch]
  induction corpus with
  | nil => rfl
  | cons n rest ih =>
    simp only [get_backlinks, List.foldr_cons, List.filter_cons] at ih ⊢
    rw [hcond n.content]
    cases hn : (find_links n.content).any
        (fun l => normKey l == normKey title
          || normKey l == removeOcc mdExt (normKey title)) with
    | false => simpa [hn] using ih
    | true => simpa [hn] using ih

/-! ### Substring search -/

/-- `findSub` hits are bounded by the text length. -/
theorem findSub_le_length (q : Str) : ∀ (s : Str) (i : Nat),
    findSub q s = some i → i ≤ s.length := by
  intro s
  induction s with
  | nil =>
    intro i h
    simp only [findSub] at h
    split at h
    · cases h
      exact Nat.le_refl 0
    · cases h
  | cons c rest ih =>
    intro i h
    simp only [findSub] at h
    split at h
    · cases h
      exact Nat.zero_le _
    · rcases Option.map_eq_some'.mp h with ⟨j, hj, rfl⟩
      have := ih j hj
      simp only [List.length_cons]
      omega

/-- A `findSub` hit is a genuine match position. -/
theorem findSub_is_match (q : Str) : ∀ (s : Str) (i : Nat),
    findSub q s = some i → q.isPrefixOf (s.drop i) = true := by
  intro s
  induction s with
  | nil =>
    intro i h
    simp only [findSub] at h
    split at h
    · cases h
      next hq => simp [List.isEmpty_iff.mp hq]
    · cases h
  | cons c rest ih =>
    intro i h
    simp only [findSub] at h
    split at h
    · cases h
      next hp => simpa using hp
    · rcases Option.map_eq_some'.mp h with ⟨j, hj, rfl⟩
      simpa using ih j hj

/-- The Python membership test `sub in s` (`findSub` succeeding) is the
substring relation. -/
theorem findSub_isSome_iff (q s : Str) :
    (findSub q s).isSome = true ↔ q <:+: s := by
  induction s with
  | nil =>
    simp only [findSub]
    constructor
    · intro h
      split at h
      · next hq =>
        simp [List.isEmpty_iff.mp hq]
      · simp at h
    · intro h
      have : q = [] := List.infix_nil.mp h
      simp [this]
  | cons c rest ih =>
    simp only [findSub]
    constructor
    · intro h
      split at h
      · next hp =>
        exact (List.isPrefixOf_iff_prefix.mp hp).isInfix
      · have hsome : (findSub q rest).isSome = true := by simpa using h
        exact List.infix_cons_iff.mpr (Or.inr (ih.mp hsome))
    · intro h
      rcases List.infix_cons_iff.mp h with hpre | hinf
      · simp [List.isPrefixOf_iff_prefix.mpr hpre]
      · split
        · simp
        · simpa using ih.mpr hinf

instance (q s : Str) : Decidable (q <:+: s) :=
  decidable_of_iff ((findSub q s).isSome = true) (findSub_isSome_iff q s)

/-- The Bool form of the membership test agrees with `decide` on the
substring relation. -/
theorem isSome_findSub_eq_decide (q s : Str) :
    (findSub q s).isSome = decide (q <:+: s) := by
  by_cases h : q <:+: s
  · simp [h, (findSub_isSome_iff q s).mpr h]
  · have hb : (findSub q s).isSome = false := by
      cases hx : (findSub q s).isSome
      · rfl
      · exact absurd ((findSub_isSome_iff q s).mp hx) h
    simp [h, hb]

/-- The empty pattern is found at offset 0 of every text
(`s.find('') == 0`). -/
theorem findSub_nil (s : Str) : findSub [] s = some 0 := by
  cases s <;> simp [findSub, List.isPrefixOf]

/-! ### Search ranking -/

/-- Inserting into the descending list places the element before exactly
the equal-or-smaller keys, so the elements of any fixed key keep their
relative order: filtering by one key value commutes with the insertion. -/
theorem orderedInsert_filter_key (r : SearchResult) (l : List SearchResult) (k : Nat) :
    (List.orderedInsert moreMatches r l).filter (fun x => x.matchCount == k)
      = if r.matchCount = k
        then r :: l.filter (fun x => x.matchCount == k)
        else l.filter (fun x => x.matchCount == k) := by
  induction l with
  | nil =>
    by_cases hk : r.matchCount = k <;> simp [List.orderedInsert, hk]
  | cons b t ih =>
    simp only [List.orderedInsert]
    by_cases hle : moreMatches r b
    · rw [if_pos hle]
      by_cases hk : r.matchCount = k <;> simp [List.filter_cons, hk]
    · rw [if_neg hle]
      have hbr : r.matchCount < b.matchCount := by
        simp only [moreMatches, not_le] at hle
        exact hle
      by_cases hbk : b.matchCount = k
      · have hk : ¬ r.matchCount = k := by omega
        simp [List.filter_cons, hbk, hk, ih]
      · by_cases hk : r.matchCount = k <;>
          simp [List.filter_cons, hbk, hk, ih]

/-- Stability of the whole sort: filtering the sorted list by one key value
gives the same sequence as filtering the input. -/
theorem insertionSort_filter_key (l : List SearchResult) (k : Nat) :
    (List.insertionSort moreMatches l).filter (fun x => x.matchCount == k)
      = l.filter (fun x => x.matchCount == k) := by
  induction l with
  | nil => rfl
  | cons a t ih =>
    simp only [List.insertionSort]
    rw [orderedInsert_filter_key]
    by_cases hk : a.matchCount = k <;> simp [List.filter_cons, hk, ih]

/-- The filtering loop of `search`, written as the spec words it: the notes
with (truthily) non-empty content whose lowercased content contains the
lowercased query as a substring, each paired with its snippet and its
non-overlapping occurrence count. -/
theorem includeList_eq (corpus : List Note) (q : Str) :
    includeList corpus q
      = (corpus.filter (fun n => !n.content.isEmpty
            && decide ((lowerStr q) <:+: (lowerStr n.content)))).map
          (fun n => { title := n.title
                      snippet := get_snippet n.content q
                      matchCount := countOccs (lowerStr q) (lowerStr n.content) }) := by
  induction corpus with
  | nil => rfl
  | cons n rest ih =>
    simp only [includeList, List.foldr_cons, List.filter_cons] at ih ⊢
    rw [isSome_findSub_eq_decide]
    cases hn : !n.content.isEmpty && decide ((lowerStr q) <:+: (lowerStr n.content)) with
    | false => simpa [hn] using ih
    | true => simpa [hn] using ih

/-- Counterexample to C2.  The note with empty content is excluded from
`search("")` by the truthiness guard `if content and ...`, although its
lowercased content does contain the lowercased query as a substring (the
empty string is a substring of the empty string) and its occurrence count
is 1, not 0 — so the result does not contain exactly the notes whose
lowercased content contains the query. -/
theorem claim2_search_cex :
    search [⟨"a".data, ([] : Str)⟩] ([] : Str) = []
    ∧ (lowerStr ([] : Str)) <:+: (lowerStr ([] : Str))
    ∧ countOccs (lowerStr ([] : Str)) (lowerStr ([] : Str)) = 1 := by
  refine ⟨by decide, ?_, by decide⟩
  decide

/-- C2 amended.  `search(query)` returns exactly the notes with non-empty
content whose lowercased content contains the lowercased query as a
substring (as a permutation of that filtered sequence), each with
`matchCount` the number of non-overlapping sequential occurrences of the
lowercased query in the lowercased content; the result is sorted by
`matchCount` descending, and ties retain `listAll()` relative order: the
subsequence of any fixed count equals that of the unsorted filtered
sequence. -/
theorem claim2_search_amended (corpus : List Note) (q : Str) :
    (search corpus q).Pairwise (fun a b => b.matchCount ≤ a.matchCount)
    ∧ (∀ k : Nat, (search corpus q).filter (fun r => r.matchCount == k)
        = ((corpus.filter (fun n => !n.content.isEmpty
              && decide ((lowerStr q) <:+: (lowerStr n.content)))).map
            (fun n => { title := n.title
                        snippet := get_snippet n.content q
                        matchCount := countOccs (lowerStr q) (lowerStr n.content) })).filter
          (fun r => r.matchCount == k))
    ∧ (search corpus q).Perm
        ((corpus.filter (fun n => !n.content.isEmpty
            && decide ((lowerStr q) <:+: (lowerStr n.content)))).map
          (fun n => { title := n.title
                      snippet := get_snippet n.content q
                      matchCount := countOccs (lowerStr q) (lowerStr n.content) })) := by
  refine ⟨?_, ?_, ?_⟩
  · exact List.sorted_insertionSort moreMatches (includeList corpus q)
  · intro k
    rw [search, insertionSort_filter_key, includeList_eq]
  · rw [search, ← includeList_eq]
    exact List.perm_insertionSort moreMatches (includeList corpus q)

/-- Counterexample to C10.  A note with empty content is readable
(`read` returns the empty text), so the claim demands an entry for it in
`search("")`; the code's truthiness guard drops it, and the result is
empty. -/
theorem claim10_empty_query_cex :
    ¬ ∃ r ∈ search [⟨"b".data, ([] : Str)⟩] ([] : Str), r.title = "b".data := by
  decide

/-- C10 amended.  For the empty-string query, `search("")` has an entry for
every note with readable non-empty content, whose `matchCount` is the
character length of that note's content plus one (`"".count` semantics). -/
theorem claim10_empty_query_amended (corpus : List Note) (n : Note)
    (h1 : n ∈ corpus) (h2 : n.content ≠ []) :
    ({ title := n.title
       snippet := get_snippet n.content []
       matchCount := n.content.length + 1 } : SearchResult)
      ∈ search corpus [] := by
  rw [search]
  refine (List.perm_insertionSort moreMatches (includeList corpus [])).mem_iff.mpr ?_
  rw [includeList_eq]
  refine List.mem_map.mpr ⟨n, List.mem_filter.mpr ⟨h1, ?_⟩, ?_⟩
  · simp [h2, List.nil_infix, lowerStr]
  · simp [countOccs, lowerStr]

/-- Witness for C10 (amended): the one-character note is returned with
count 2. -/
theorem claim10_empty_query_witness :
    ({ title := "a".data
       snippet := get_snippet ("x".data) []
       matchCount := ("x".data).length + 1 } : SearchResult)
      ∈ search [⟨"a".data, "x".data⟩] [] :=
  claim10_empty_query_amended [⟨"a".data, "x".data⟩] ⟨"a".data, "x".data⟩
    (by decide) (by decide)

/-! ### Snippet -/

/-- The snippet as §4.5 words it: the window of 50 characters of context on
each side of the first match (at index `idx`, match length the query
length), clipped to the content bounds; an ellipsis is prefixed when the
window does not start at offset 0 and suffixed when it does not end at the
content length; the result is then trimmed of surrounding whitespace.
Natural-number subtraction clips the lower bound at 0. -/
def snippetSpec (content query : Str) (idx : Nat) : Str :=
  let lo := idx - 50
  let hi := min content.length (idx + query.length + 50)
  let window := (content.drop lo).take (hi - lo)
  strip ((if lo ≠ 0 then "...".data else [])
    ++ window
    ++ (if hi ≠ content.length then "...".data else []))

/-- C3.  When the query occurs case-insensitively in the content (first
occurrence at `idx`), the snippet is the clipped 50-characters-each-side
window around that match, with the window-boundary ellipses, trimmed. -/
theorem claim3_snippet (content query : Str) (idx : Nat)
    (h : findSub (lowerStr query) (lowerStr content) = some idx) :
    (lowerStr query) <:+: (lowerStr content)
    ∧ get_snippet content query = snippetSpec content query idx := by
  refine ⟨(findSub_isSome_iff _ _).mp (by simp [h]), ?_⟩
  have hidx : idx ≤ content.length := by
    have hle := findSub_le_length (lowerStr query) (lowerStr content) idx h
    simpa [lowerStr] using hle
  have hhi : min content.length (idx + query.length + 50) ≤ content.length :=
    Nat.min_le_left _ _
  have hlo : idx - 50 ≤ min content.length (idx + query.length + 50) :=
    le_min_iff.mpr ⟨by omega, by omega⟩
  have hw : (content.take (min content.length (idx + query.length + 50))).drop (idx - 50)
      = (content.drop (idx - 50)).take
          (min content.length (idx + query.length + 50) - (idx - 50)) := by
    have harith : idx - 50 + (min content.length (idx + query.length + 50) - (idx - 50))
        = min content.length (idx + query.length + 50) := by omega
    rw [List.take_drop, harith]
  have hmain : get_snippet content query
      = strip ((if 0 < idx - 50 then ("...".data) else [])
          ++ ((content.take (min content.length (idx + query.length + 50))).drop (idx - 50))
          ++ (if min content.length (idx + query.length + 50) < content.length
              then ("...".data) else [])) := by
    rw [get_snippet, h]
    by_cases h1 : 0 < idx - 50 <;>
      by_cases h2 : min content.length (idx + query.length + 50) < content.length <;>
        simp [h1, h2]
  rw [hmain, hw]
  simp only [snippetSpec]
  have e1 : ((idx - 50 : Nat) ≠ 0) ↔ (0 < idx - 50) := by omega
  have e2 : (min content.length (idx + query.length + 50) ≠ content.length)
      ↔ (min content.length (idx + query.length + 50) < content.length) :=
    ⟨fun hne => lt_of_le_of_ne hhi hne, fun hlt => ne_of_lt hlt⟩
  simp only [e1, e2]

/-- Witness for C3 on the spec's own example: query `quick` in
`The quick brown fox`, first match at index 4; both window bounds are
clipped, so there are no ellipses. -/
theorem claim3_snippet_witness :
    findSub (lowerStr ("quick".data)) (lowerStr ("The quick brown fox".data)) = some 4
    ∧ ((lowerStr ("quick".data)) <:+: (lowerStr ("The quick brown fox".data))
      ∧ get_snippet ("The quick brown fox".data) ("quick".data)
        = snippetSpec ("The quick brown fox".data) ("quick".data) 4) :=
  ⟨by decide, claim3_snippet ("The quick brown fox".data) ("quick".data) 4 (by decide)⟩

/-! ### Title-path round trip -/

/-- Replacing spaces by underscores never produces a slash. -/
theorem slash_not_mem_map (t : Str) (h : '/' ∉ t) : '/' ∉ t.map spaceToUnd := by
  intro hmem
  rcases List.mem_map.mp hmem with ⟨a, ha, hg⟩
  by_cases hsp : a = ' '
  · rw [hsp] at hg
    exact absurd hg (by decide)
  · rw [show spaceToUnd a = a from by simp [spaceToUnd, hsp]] at hg
    exact h (hg ▸ ha)

/-- Mapping a character function that fixes every member is the identity. -/
theorem map_slash_id (s : Str) (h : '/' ∉ s) : s.map slashToUnd = s := by
  induction s with
  | nil => rfl
  | cons a t ih =>
    have ha : a ≠ '/' := fun hx => h (by simp [hx])
    have ht : '/' ∉ t := fun hx => h (by simp [hx])
    simp [slashToUnd, ha, ih ht]

/-- If the space-mapped title ends in `".md"` then so did the title: the
map only turns spaces into underscores, and none of `'.'`, `'m'`, `'d'` is
an underscore. -/
theorem md_suffix_of_map (t : Str) (h : mdExt.isSuffixOf (t.map spaceToUnd) = true) :
    mdExt.isSuffixOf t = true := by
  rw [List.isSuffixOf_iff_suffix] at h ⊢
  rcases h with ⟨pre, hpre⟩
  rcases List.map_eq_append_iff.mp hpre.symm with ⟨u, v, hsplit, _, hv⟩
  have hchar : ∀ a d, d ≠ '_' → spaceToUnd a = d → a = d := by
    intro a d hd hg
    by_cases hsp : a = ' '
    · rw [hsp] at hg
      simp [spaceToUnd] at hg
      exact absurd hg.symm hd
    · rwa [show spaceToUnd a = a from by simp [spaceToUnd, hsp]] at hg
  rcases List.map_eq_cons_iff.mp hv with ⟨a1, v1, hv1, ha1, hv1m⟩
  rcases List.map_eq_cons_iff.mp hv1m with ⟨a2, v2, hv2, ha2, hv2m⟩
  rcases List.map_eq_cons_iff.mp hv2m with ⟨a3, v3, hv3, ha3, hv3m⟩
  have hv3nil : v3 = [] := by
    cases v3 with
    | nil => rfl
    | cons x xs => simp at hv3m
  have e1 : a1 = '.' := hchar a1 '.' (by decide) ha1
  have e2 : a2 = 'm' := hchar a2 'm' (by decide) ha2
  have e3 : a3 = 'd' := hchar a3 'd' (by decide) ha3
  refine ⟨u, ?_⟩
  rw [hsplit, hv1, hv2, hv3, hv3nil, e1, e2, e3]
  rfl

/-- The last dot of `name ++ ".md"` is the appended one. -/
theorem lastDot_append_md (f : Str) : lastDotIdx (f ++ mdExt) = some f.length := by
  have hidx : ((f ++ mdExt).reverse.findIdx? (fun c => c = '.')) = some 2 := by
    rw [List.reverse_append]
    rw [show mdExt.reverse = ['d', 'm', '.'] from rfl]
    simp [List.findIdx?_cons]
  simp only [lastDotIdx, hidx, List.length_append]
  rw [show mdExt.length = 3 from rfl]
  congr 1

/-- Undoing the space-to-underscore map restores a title that had no
underscore of its own. -/
theorem map_und_space (t : Str) (h : '_' ∉ t) :
    (t.map spaceToUnd).map undToSpace = t := by
  induction t with
  | nil => rfl
  | cons a s ih =>
    have hu : a ≠ '_' := fun hx => h (by simp [hx])
    have hs : '_' ∉ s := fun hx => h (by simp [hx])
    by_cases hsp : a = ' '
    · simp [hsp, spaceToUnd, undToSpace, ih hs]
    · simp [spaceToUnd, undToSpace, hsp, hu, ih hs]

/-- Counterexample to C4.  `a_b` has no uppercase letter and no slash, yet
`titleFor(pathFor("a_b"))` is `a b`: the inverse turns every underscore
into a space, so titles containing underscores do not round-trip.  (Titles
ending in `.md`, and the empty title, fail as well.) -/
theorem claim4_roundtrip_cex :
    titleFor (pathFor ("a_b".data)) ≠ "a_b".data
    ∧ lowerStr ("a_b".data) = "a_b".data
    ∧ '/' ∉ "a_b".data := by
  refine ⟨by decide, by decide, by decide⟩

/-- C4 amended.  `titleFor(pathFor(T))` equals `T` for every non-empty
title `T` that is fixed by lowercasing (no uppercase letters) and contains
no `/` and no `_`, and does not already end in `.md`. -/
theorem claim4_roundtrip_amended (T : Str) (h1 : lowerStr T = T) (h2 : '/' ∉ T)
    (h3 : '_' ∉ T) (h4 : T ≠ []) (h5 : mdExt.isSuffixOf T = false) :
    titleFor (pathFor T) = T := by
  have hslash : (T.map spaceToUnd).map slashToUnd = T.map spaceToUnd :=
    map_slash_id _ (slash_not_mem_map T h2)
  have hsuf : mdExt.isSuffixOf (T.map spaceToUnd) = false := by
    cases hx : mdExt.isSuffixOf (T.map spaceToUnd)
    · rfl
    · rw [md_suffix_of_map T hx] at h5
      cases h5
  have hlen : 0 < (T.map spaceToUnd).length := by
    rw [List.length_map]
    exact List.length_pos.mpr h4
  rw [pathFor]
  simp only [h1, hslash, hsuf, Bool.false_eq_true, if_false]
  have hstem : stem (T.map spaceToUnd ++ mdExt) = T.map spaceToUnd := by
    have hcond : 0 < (T.map spaceToUnd).length
        ∧ (T.map spaceToUnd).length + 1 < (T.map spaceToUnd ++ mdExt).length := by
      refine ⟨hlen, ?_⟩
      rw [List.length_append, show mdExt.length = 3 from rfl]
      omega
    simp only [stem, lastDot_append_md, hcond.1, hcond.2, and_self, if_true]
    exact List.take_left _ _
  rw [titleFor, hstem]
  exact map_und_space T h3

/-- Witness for C4 (amended) on the lowercase, slash- and underscore-free
title `my note`. -/
theorem claim4_roundtrip_witness :
    titleFor (pathFor ("my note".data)) = "my note".data :=
  claim4_roundtrip_amended ("my note".data) (by decide) (by decide) (by decide)
    (by decide) (by decide)

end Anada
